import Mathlib

/-!
Shallow embedding of the core of the `bv` bit-vector library: the block
arithmetic, the `Bits`/`BitsMut`/`BitsPush` trait default methods from
`traits.rs`, the `BitVec` container implementations from
`bit_vec/impls.rs`, and the `Inner` storage type from `bit_vec/inner.rs`,
together with theorems settling the specified claims.

Blocks of width `W` are embedded as natural numbers below `2 ^ w`; bit
vectors as a list of raw block values plus a logical bit length.  Fallible
operations (ones that `assert!` in the source) additionally get a checked
variant returning `Option`, mirroring the asserts in source order.
-/

namespace Bv

/-- Modelled from the spec: `low_mask(n)` is a block value with the low `n`
bits set and the rest clear (`BlockType::low_mask`, whose source is not in
the provided files). -/
def low_mask (n : Nat) : Nat := 2 ^ n - 1

/-- Modelled from the spec: `Block::get_bits(start, len)` reads the `len`-bit
field of a block starting at bit `start`, little-endian
(`BlockType::get_bits`, whose source is not in the provided files). -/
def Block.get_bits (b start len : Nat) : Nat := (b >>> start) &&& low_mask len

/-- Modelled from the spec: `Block::with_bit(position, value)` is a copy of a
`W`-bit block with the bit at `position` forced to `value`
(`BlockType::with_bit`, whose source is not in the provided files). -/
def Block.with_bit (w b position : Nat) (value : Bool) : Nat :=
  if value then b ||| (1 <<< position)
  else b &&& ((2 ^ w - 1) ^^^ (1 <<< position))

/-- Modelled from the spec: `Block::with_bits(start, len, value)` is a copy of
a `W`-bit block whose `len`-bit field at `start` is replaced by the low `len`
bits of `value` (`BlockType::with_bits`, whose source is not in the provided
files). -/
def Block.with_bits (w b start len value : Nat) : Nat :=
  (b &&& ((2 ^ w - 1) ^^^ (low_mask len <<< start))) |||
    ((value &&& low_mask len) <<< start)

/-- Modelled from the spec: `block_count_for(bit_len) = ceil(bit_len / W)`
(`BlockType::ceil_div_nbits`, whose source is not in the provided files). -/
def block_count_for (w n : Nat) : Nat := (n + w - 1) / w

/-- Modelled from the spec: `bits_in_block(bit_len, block_index)` is `W` for
every block except possibly the last, where it is the number of remaining
bits (`BlockType::block_bits`, whose source is not in the provided files). -/
def block_bits (w len i : Nat) : Nat := min (len - w * i) w

/-! ### The generic read path of `Bits` (`traits.rs`)

A `Bits` implementor is abstracted by its two primitives `bit_len` and
`get_block`; the trait's default methods `block_len`, `get_bit` and
`get_bits` are functions of those, translated from `traits.rs`. -/

/-- An implementor of the `Bits` trait, reduced to its two read primitives.
`get_block` values of a real implementor are `W`-bit machine words. -/
structure BitsModel (w : Nat) where
  bit_len : Nat
  get_block : Nat → Nat

variable {w : Nat}

/-- Default `Bits::block_len` (`traits.rs`). -/
def BitsModel.block_len (m : BitsModel w) : Nat := block_count_for w m.bit_len

/-- Default `Bits::get_bit` (`traits.rs`), without the bounds assert:
fetch the owning block, test the bit at the in-block offset. -/
def BitsModel.get_bit (m : BitsModel w) (position : Nat) : Bool :=
  (m.get_block (position / w)).testBit (position % w)

/-- Default `Bits::get_bits` (`traits.rs`), without the asserts: single
masked block read when the span fits in the current block, otherwise the
combination of the low `margin` bits of the first block with the next
block's bits shifted left by `margin`. -/
def BitsModel.get_bits (m : BitsModel w) (start : Nat) (count : Nat) : Nat :=
  let offset := start % w
  let index := start / w
  let margin := w - offset
  if count ≤ margin then
    Block.get_bits (m.get_block index) offset count
  else
    let extra := count - margin
    let low_bits := Block.get_bits (m.get_block index) offset margin
    let high_bits := Block.get_bits (m.get_block (index + 1)) 0 extra
    (high_bits <<< margin) ||| low_bits

/-- Checked `Bits::get_block`: `assert!(position < self.block_len())`. -/
def BitsModel.get_block_checked (m : BitsModel w) (position : Nat) : Option Nat :=
  if position < m.block_len then some (m.get_block position) else none

/-- Checked `Bits::get_bits`, mirroring the asserts of `traits.rs` in source
order: the span check first, then each inner `get_block` bound. -/
def BitsModel.get_bits_checked (m : BitsModel w) (start : Nat) (count : Nat) :
    Option Nat :=
  if start + count ≤ m.bit_len then
    let offset := start % w
    let index := start / w
    let margin := w - offset
    if count ≤ margin then
      (m.get_block_checked index).map (fun b => Block.get_bits b offset count)
    else
      let extra := count - margin
      (m.get_block_checked index).bind (fun b1 =>
        (m.get_block_checked (index + 1)).map (fun b2 =>
          (Block.get_bits b2 0 extra <<< margin) |||
            Block.get_bits b1 offset margin))
  else none

/-! ### Arithmetic helper lemmas -/

theorem testBit_get_bits (b s n i : Nat) :
    (Block.get_bits b s n).testBit i = (decide (i < n) && b.testBit (s + i)) := by
  simp [Block.get_bits, low_mask, Nat.testBit_land, Nat.testBit_shiftRight,
    Nat.testBit_two_pow_sub_one, Bool.and_comm]

theorem get_bits_lt (b s n : Nat) : Block.get_bits b s n < 2 ^ n := by
  have : Block.get_bits b s n ≤ low_mask n := Nat.and_le_right
  have h2 : 0 < 2 ^ n := Nat.pos_pow_of_pos n (by omega)
  simp only [low_mask] at this
  omega

theorem testBit_get_bits_high (b s n i : Nat) (h : n ≤ i) :
    (Block.get_bits b s n).testBit i = false := by
  simp [testBit_get_bits, Nat.not_lt.mpr h]

/-- Splitting a global bit position that stays inside the block of `s`. -/
theorem divmod_lo (hw : 0 < w) (s i : Nat) (h : s % w + i < w) :
    (s + i) / w = s / w ∧ (s + i) % w = s % w + i := by
  have hsm := Nat.div_add_mod s w
  have h1 : s + i = s % w + i + w * (s / w) := by omega
  constructor
  · rw [h1, Nat.add_mul_div_left _ _ hw, Nat.div_eq_of_lt h]
    omega
  · rw [h1, Nat.add_mul_mod_self_left, Nat.mod_eq_of_lt h]

/-- Splitting a global bit position that lands in the block after `s`'s. -/
theorem divmod_hi (hw : 0 < w) (s i : Nat) (h1 : w ≤ s % w + i)
    (h2 : s % w + i < 2 * w) :
    (s + i) / w = s / w + 1 ∧ (s + i) % w = s % w + i - w := by
  have hsm := Nat.div_add_mod s w
  have h3 : s + i = (s % w + i - w) + w * (s / w + 1) := by
    have : w * (s / w + 1) = w * (s / w) + w := by ring
    omega
  constructor
  · rw [h3, Nat.add_mul_div_left _ _ hw, Nat.div_eq_of_lt (by omega)]
    omega
  · rw [h3, Nat.add_mul_mod_self_left, Nat.mod_eq_of_lt (by omega)]

theorem le_mul_block_count (hw : 0 < w) (n : Nat) :
    n ≤ w * block_count_for w n := by
  unfold block_count_for
  have h1 := Nat.div_add_mod (n + w - 1) w
  have h2 : (n + w - 1) % w < w := Nat.mod_lt _ hw
  omega

theorem div_lt_block_count (hw : 0 < w) {p n : Nat} (h : p < n) :
    p / w < block_count_for w n := by
  have h1 := le_mul_block_count hw n
  rw [Nat.div_lt_iff_lt_mul hw]
  calc p < n := h
    _ ≤ w * block_count_for w n := h1
    _ = block_count_for w n * w := Nat.mul_comm _ _

theorem block_count_unaligned (hw : 0 < w) {n : Nat} (h : n % w ≠ 0) :
    block_count_for w n = n / w + 1 := by
  unfold block_count_for
  have hsm := Nat.div_add_mod n w
  have hr : n % w < w := Nat.mod_lt _ hw
  have hmul : w * (n / w + 1) = w * (n / w) + w := by ring
  have h1 : n + w - 1 = n % w - 1 + w * (n / w + 1) := by omega
  rw [h1, Nat.add_mul_div_left _ _ hw, Nat.div_eq_of_lt (by omega)]
  omega

theorem block_count_aligned (hw : 0 < w) {n : Nat} (h : n % w = 0) :
    block_count_for w n = n / w := by
  unfold block_count_for
  have hsm := Nat.div_add_mod n w
  have h1 : n + w - 1 = w - 1 + w * (n / w) := by omega
  rw [h1, Nat.add_mul_div_left _ _ hw, Nat.div_eq_of_lt (by omega)]
  omega

theorem block_count_le (hw : 0 < w) {n L : Nat} (h : n ≤ L * w) :
    block_count_for w n ≤ L := by
  unfold block_count_for
  rcases Nat.eq_zero_or_pos n with h0 | h0
  · subst h0
    have : (0 + w - 1) / w = 0 := Nat.div_eq_of_lt (by omega)
    omega
  · have h1 : n + w - 1 < (L + 1) * w := by
      have : (L + 1) * w = L * w + w := by ring
      omega
    have := (Nat.div_lt_iff_lt_mul hw).mpr h1
    omega

/-- Bit-level characterization of the default `Bits::get_bits`: bit `i` of
the result is bit `start + i` of the container for `i < count`, and zero for
`i ≥ count`. -/
theorem get_bits_testBit (hw : 0 < w) (m : BitsModel w) (start count : Nat)
    (hcount : count ≤ w) (i : Nat) :
    (m.get_bits start count).testBit i =
      (decide (i < count) && m.get_bit (start + i)) := by
  have hoff : start % w < w := Nat.mod_lt _ hw
  simp only [BitsModel.get_bits]
  by_cases hm : count ≤ w - start % w
  · rw [if_pos hm, testBit_get_bits]
    by_cases hi : i < count
    · obtain ⟨hd, hm'⟩ := divmod_lo hw start i (by omega)
      simp [hi, BitsModel.get_bit, hd, hm']
    · simp [hi]
  · rw [if_neg hm]
    simp only [Nat.testBit_or, Nat.testBit_shiftLeft, testBit_get_bits]
    by_cases hi1 : i < w - start % w
    · obtain ⟨hd, hm'⟩ := divmod_lo hw start i (by omega)
      have hns : ¬ (w - start % w ≤ i) := by omega
      simp [hi1, hns, BitsModel.get_bit, hd, hm', show i < count by omega]
    · by_cases hi2 : i < count
      · obtain ⟨hd, hm'⟩ := divmod_hi hw start i (by omega) (by omega)
        have hle : w - start % w ≤ i := by omega
        have hext : i - (w - start % w) < count - (w - start % w) := by omega
        simp [hi1, hle, hext, hi2, BitsModel.get_bit, hd, hm']
        congr 1
        omega
      · have hnx : ¬ (i - (w - start % w) < count - (w - start % w)) := by omega
        simp [hi1, hi2, hnx]

/-- The result of the default `Bits::get_bits` is below `2 ^ count`. -/
theorem get_bits_lt_two_pow (hw : 0 < w) (m : BitsModel w) (start count : Nat)
    (hcount : count ≤ w) : m.get_bits start count < 2 ^ count := by
  apply Nat.lt_pow_two_of_testBit
  intro i hi
  rw [get_bits_testBit hw m start count hcount i]
  simp [Nat.not_lt.mpr hi]

/-! ### The `BitVec` container (`bit_vec/impls.rs`, with the growth
primitives of `bit_vec/mod.rs` modelled from the spec) -/

/-- The `BitVec` container: a raw block buffer (`Inner`, embedded as the
list of allocated block values) and a logical bit length `len`.  The width
`w` is a phantom parameter fixing the block type.  The container invariant
of the source is `len ≤ bits.length * w`. -/
structure BitVec (w : Nat) where
  bits : List Nat
  len : Nat

/-- `Bits::bit_len` for `BitVec` (`bit_vec/impls.rs`). -/
def BitVec.bit_len (c : BitVec w) : Nat := c.len

/-- `Bits::block_len` for `BitVec` (default from `traits.rs`). -/
def BitVec.block_len (c : BitVec w) : Nat := block_count_for w c.len

/-- `Bits::get_block` for `BitVec` (`bit_vec/impls.rs`), without the bounds
assert: reads the raw block and masks it to the `block_bits` bits that
belong to the vector, hiding any slack bits. -/
def BitVec.get_block (c : BitVec w) (position : Nat) : Nat :=
  Block.get_bits (c.bits.getD position 0) 0 (block_bits w c.len position)

/-- The `Bits` view of a `BitVec`: `get_bit`/`get_bits` are the trait
defaults over `bit_len` and `get_block`. -/
def BitVec.toModel (c : BitVec w) : BitsModel w :=
  ⟨c.len, fun i => c.get_block i⟩

/-- Default `Bits::get_bit` instantiated at `BitVec`. -/
def BitVec.get_bit (c : BitVec w) (position : Nat) : Bool :=
  c.toModel.get_bit position

/-- Default `Bits::get_bits` instantiated at `BitVec`. -/
def BitVec.get_bits (c : BitVec w) (start count : Nat) : Nat :=
  c.toModel.get_bits start count

/-- `BitsMut::set_block` for `BitVec` (`bit_vec/impls.rs`), without the
bounds assert: stores the raw value, possibly setting slack bits. -/
def BitVec.set_block (c : BitVec w) (position value : Nat) : BitVec w :=
  ⟨c.bits.set position value, c.len⟩

/-- Default `BitsMut::set_bit` (`traits.rs`) instantiated at `BitVec`:
read the owning block, force the bit, write the block back. -/
def BitVec.set_bit (c : BitVec w) (position : Nat) (value : Bool) : BitVec w :=
  c.set_block (position / w)
    (Block.with_bit w (c.get_block (position / w)) (position % w) value)

/-- Default `BitsMut::set_bits` (`traits.rs`) instantiated at `BitVec`:
single masked block write when the span fits, otherwise a write of the low
`margin` bits of `value` into the first block and of `value >> margin` into
the next. -/
def BitVec.set_bits (c : BitVec w) (start count value : Nat) : BitVec w :=
  let offset := start % w
  let index := start / w
  let margin := w - offset
  if count ≤ margin then
    c.set_block index (Block.with_bits w (c.get_block index) offset count value)
  else
    let extra := count - margin
    let old_block1 := c.get_block index
    let old_block2 := c.get_block (index + 1)
    let high_bits := value >>> margin
    let c1 := c.set_block index (Block.with_bits w old_block1 offset margin value)
    c1.set_block (index + 1) (Block.with_bits w old_block2 0 extra high_bits)

/-- Checked `BitVec::get_block` (`assert!(position < self.block_len())`). -/
def BitVec.get_block_checked (c : BitVec w) (position : Nat) : Option Nat :=
  if position < c.block_len then some (c.get_block position) else none

/-- Checked `BitVec::set_block` (`assert!(position < self.block_len())`). -/
def BitVec.set_block_checked (c : BitVec w) (position value : Nat) :
    Option (BitVec w) :=
  if position < c.block_len then some (c.set_block position value) else none

/-- Checked default `Bits::get_bit`, mirroring the asserts in source order:
the position check of `get_bit`, then the block check of `get_block`. -/
def BitVec.get_bit_checked (c : BitVec w) (position : Nat) : Option Bool :=
  if position < c.len then
    (c.get_block_checked (position / w)).map (fun b => b.testBit (position % w))
  else none

/-- Checked default `BitsMut::set_bit`, mirroring the asserts in source
order. -/
def BitVec.set_bit_checked (c : BitVec w) (position : Nat) (value : Bool) :
    Option (BitVec w) :=
  if position < c.len then
    (c.get_block_checked (position / w)).bind (fun b =>
      c.set_block_checked (position / w)
        (Block.with_bit w b (position % w) value))
  else none

/-- Checked default `Bits::get_bits` at `BitVec`. -/
def BitVec.get_bits_checked (c : BitVec w) (start count : Nat) : Option Nat :=
  c.toModel.get_bits_checked start count

/-- Checked default `BitsMut::set_bits`, mirroring the asserts in source
order: the span check, the two block reads, then the two block writes. -/
def BitVec.set_bits_checked (c : BitVec w) (start count value : Nat) :
    Option (BitVec w) :=
  if start + count ≤ c.len then
    let offset := start % w
    let index := start / w
    let margin := w - offset
    if count ≤ margin then
      (c.get_block_checked index).bind (fun b =>
        c.set_block_checked index (Block.with_bits w b offset count value))
    else
      let extra := count - margin
      (c.get_block_checked index).bind (fun old_block1 =>
        (c.get_block_checked (index + 1)).bind (fun old_block2 =>
          (c.set_block_checked index
              (Block.with_bits w old_block1 offset margin value)).bind (fun c1 =>
            c1.set_block_checked (index + 1)
              (Block.with_bits w old_block2 0 extra (value >>> margin)))))
  else none

/-! ### Growth operations (`BitsPush`) -/

/-- Modelled from the spec: `BitVec::push` (in `bit_vec/mod.rs`, not among
the provided files) appends one bit: grow the storage by a zero-filled
block when the length has reached the capacity, advance `len`, and store
the bit through `set_bit`.  (The spec's geometric growth factor only
affects capacity, which is unobservable through the read interface; the
model grows by exactly the needed block.) -/
def BitVec.push (c : BitVec w) (value : Bool) : BitVec w :=
  let c1 : BitVec w :=
    if c.len = c.bits.length * w then ⟨c.bits ++ [0], c.len⟩ else c
  let c2 : BitVec w := ⟨c1.bits, c1.len + 1⟩
  c2.set_bit c.len value

/-- Modelled from the spec: `BitVec::pop` (in `bit_vec/mod.rs`, not among
the provided files) removes and returns the last bit, or reports `none` on
an empty vector; storage is not shrunk. -/
def BitVec.pop (c : BitVec w) : Option Bool × BitVec w :=
  if c.len = 0 then (none, c)
  else (some (c.get_bit (c.len - 1)), ⟨c.bits, c.len - 1⟩)

/-- Modelled from the spec: `BitVec::block_reserve` (in `bit_vec/mod.rs`,
not among the provided files) ensures capacity for `additional` more blocks
beyond the used ones, growing into a zero-filled larger buffer. -/
def BitVec.block_reserve (c : BitVec w) (additional : Nat) : BitVec w :=
  ⟨c.bits ++ List.replicate (c.block_len + additional - c.bits.length) 0, c.len⟩

/-- `BitsPush::align_block` specialized for `BitVec` (`bit_vec/impls.rs`):
when the length is not block-aligned, fill the slack region of the last
occupied block with copies of `value` and advance `len` to the boundary. -/
def BitVec.align_block (c : BitVec w) (value : Bool) : BitVec w :=
  let keep_bits := c.len % w
  if 0 < keep_bits then
    let last_index := c.block_len - 1
    let last := c.bits.getD last_index 0
    let last' :=
      if value then last ||| ((2 ^ w - 1) ^^^ low_mask keep_bits)
      else last &&& low_mask keep_bits
    ⟨c.bits.set last_index last', c.len + (w - keep_bits)⟩
  else c

/-- `BitsPush::push_block` specialized for `BitVec` (`bit_vec/impls.rs`):
align with 0s, reserve one more block, advance `len` by `W`, store the
block. -/
def BitVec.push_block (c : BitVec w) (value : Nat) : BitVec w :=
  let c1 := c.align_block false
  let c2 := c1.block_reserve 1
  let c3 : BitVec w := ⟨c2.bits, c2.len + w⟩
  c3.set_block (c3.block_len - 1) value

theorem push_len (c : BitVec w) (value : Bool) : (c.push value).len = c.len + 1 := by
  simp only [BitVec.push, BitVec.set_bit, BitVec.set_block]
  split <;> rfl

theorem align_measure_lt (hw : 0 < w) (n : Nat) (h : ¬ n % w = 0) :
    (w - (n + 1) % w) % w < (w - n % w) % w := by
  have hr : n % w < w := Nat.mod_lt _ hw
  have hw2 : 2 ≤ w := by omega
  have h1 : (n + 1) % w = (n % w + 1) % w := by
    rw [Nat.add_mod, Nat.mod_eq_of_lt (show (1 : Nat) < w by omega)]
  rcases Nat.lt_or_ge (n % w + 1) w with h2 | h2
  · rw [h1, Nat.mod_eq_of_lt h2,
      Nat.mod_eq_of_lt (show w - (n % w + 1) < w by omega),
      Nat.mod_eq_of_lt (show w - n % w < w by omega)]
    omega
  · have h3 : n % w + 1 = w := by omega
    rw [h1, h3, Nat.mod_self, Nat.sub_zero, Nat.mod_self,
      Nat.mod_eq_of_lt (show w - n % w < w by omega)]
    omega

/-- Default `BitsPush::align_block` (`traits.rs`): push `value` one bit at
a time until the length is block-aligned. -/
def BitVec.align_block_default (hw : 0 < w) (c : BitVec w) (value : Bool) :
    BitVec w :=
  if h : ¬ c.len % w = 0 then
    BitVec.align_block_default hw (c.push value) value
  else c
termination_by (w - c.len % w) % w
decreasing_by
  rw [push_len]
  exact align_measure_lt hw c.len h

/-- The bit-pushing loop of the default `BitsPush::push_block`
(`traits.rs`): push the low bit of `value`, shift right, `W` times. -/
def BitVec.push_bits_loop (c : BitVec w) (value : Nat) : Nat → BitVec w
  | 0 => c
  | n + 1 =>
    BitVec.push_bits_loop (c.push (decide (value &&& 1 ≠ 0))) (value >>> 1) n

/-- Default `BitsPush::push_block` (`traits.rs`): align with 0s, then push
the block one bit at a time. -/
def BitVec.push_block_default (hw : 0 < w) (c : BitVec w) (value : Nat) :
    BitVec w :=
  BitVec.push_bits_loop (BitVec.align_block_default hw c false) value w

/-! ### State-level lemmas for `BitVec` -/

theorem getD_set (l : List Nat) (i j v : Nat) :
    (l.set i v).getD j 0 = if j = i ∧ i < l.length then v else l.getD j 0 := by
  by_cases h : j = i ∧ i < l.length
  · obtain ⟨h1, h2⟩ := h
    subst h1
    simp [List.getD_eq_getElem?_getD, List.getElem?_set_self h2, h2]
  · rcases Decidable.not_and_iff_or_not.mp h with h1 | h1
    · simp [List.getD_eq_getElem?_getD, List.getElem?_set_ne (Ne.symm h1), h]
    · rw [List.set_eq_of_length_le (by omega)]
      simp [h]

theorem getD_append_replicate_zero (l : List Nat) (k j : Nat) :
    (l ++ List.replicate k 0).getD j 0 = l.getD j 0 := by
  by_cases h : j < l.length
  · simp [List.getD_eq_getElem?_getD, List.getElem?_append, h]
  · simp only [List.getD_eq_getElem?_getD, List.getElem?_append,
      if_neg h, List.getElem?_replicate]
    rw [List.getElem?_eq_none (by omega)]
    split <;> rfl

/-- Master characterization of `BitVec::get_block`: bit `o` of the returned
block is the raw stored bit when position `w * i + o` is inside the logical
range, and zero otherwise. -/
theorem get_block_testBit (hw : 0 < w) (c : BitVec w) (i o : Nat) :
    (c.get_block i).testBit o =
      (decide (w * i + o < c.len ∧ o < w) && (c.bits.getD i 0).testBit o) := by
  rw [BitVec.get_block, testBit_get_bits]
  simp only [Nat.zero_add]
  congr 1
  rw [block_bits]
  simp only [decide_eq_decide, Nat.lt_min]
  omega

theorem get_block_testBit_high (hw : 0 < w) (c : BitVec w) (i o : Nat)
    (h : w ≤ o) : (c.get_block i).testBit o = false := by
  rw [get_block_testBit hw]
  simp only [Bool.and_eq_false_iff, decide_eq_false_iff_not]
  left
  omega

/-- `BitVec::get_bit` in terms of the raw storage: the bounds test on `len`
and the raw stored bit. -/
theorem get_bit_eq (hw : 0 < w) (c : BitVec w) (p : Nat) :
    c.get_bit p =
      (decide (p < c.len) && (c.bits.getD (p / w) 0).testBit (p % w)) := by
  rw [BitVec.get_bit, BitsModel.get_bit]
  show (c.get_block (p / w)).testBit (p % w) = _
  rw [get_block_testBit hw]
  congr 1
  simp only [decide_eq_decide]
  have h1 := Nat.div_add_mod p w
  have h2 : p % w < w := Nat.mod_lt _ hw
  omega

theorem get_bit_of_le_len (hw : 0 < w) (c : BitVec w) (p : Nat)
    (h : c.len ≤ p) : c.get_bit p = false := by
  rw [get_bit_eq hw]
  simp [Nat.not_lt.mpr h]

theorem set_block_len (c : BitVec w) (i v : Nat) :
    (c.set_block i v).len = c.len := rfl

theorem set_block_getD (c : BitVec w) (i v j : Nat) :
    ((c.set_block i v).bits).getD j 0 =
      if j = i ∧ i < c.bits.length then v else c.bits.getD j 0 :=
  getD_set c.bits i j v

theorem testBit_with_bits (b s n v o : Nat) (hsn : s + n ≤ w) :
    (Block.with_bits w b s n v).testBit o =
      if s ≤ o ∧ o - s < n then v.testBit (o - s)
      else (b.testBit o && decide (o < w)) := by
  simp only [Block.with_bits, Nat.testBit_or, Nat.testBit_land, Nat.testBit_xor,
    Nat.testBit_shiftLeft, Nat.testBit_two_pow_sub_one, low_mask, ge_iff_le]
  by_cases hr : s ≤ o ∧ o - s < n
  · obtain ⟨h1, h2⟩ := hr
    have ho : o < w := by omega
    simp [h1, h2, ho]
  · rw [if_neg hr]
    rcases Decidable.not_and_iff_or_not.mp hr with h1 | h1 <;> simp [h1]

theorem testBit_with_bit (b s : Nat) (value : Bool) (o : Nat) (hs : s < w)
    (hb : ∀ j, w ≤ j → b.testBit j = false) :
    (Block.with_bit w b s value).testBit o =
      if o = s then value else b.testBit o := by
  rcases Nat.lt_or_ge o w with how | how
  · by_cases ho : o = s
    · subst ho
      cases value <;>
        simp [Block.with_bit, Nat.one_shiftLeft, Nat.testBit_two_pow,
          Nat.testBit_two_pow_sub_one, Nat.testBit_or, Nat.testBit_land,
          Nat.testBit_xor, how, hs]
    · have ho' : ¬ s = o := fun h => ho h.symm
      cases value <;>
        simp [Block.with_bit, Nat.one_shiftLeft, Nat.testBit_two_pow,
          Nat.testBit_two_pow_sub_one, Nat.testBit_or, Nat.testBit_land,
          Nat.testBit_xor, ho, ho', how]
  · have hbo : b.testBit o = false := hb o how
    have ho : ¬ o = s := by omega
    have ho' : ¬ s = o := by omega
    cases value <;>
      simp [Block.with_bit, Nat.one_shiftLeft, Nat.testBit_two_pow,
        Nat.testBit_two_pow_sub_one, Nat.testBit_or, Nat.testBit_land,
        Nat.testBit_xor, ho, ho', hbo, Nat.not_lt.mpr how]

theorem set_bit_len (c : BitVec w) (p : Nat) (v : Bool) :
    (c.set_bit p v).len = c.len := rfl

theorem div_lt_length (hw : 0 < w) (c : BitVec w)
    (hinv : c.len ≤ c.bits.length * w) {p : Nat} (hp : p < c.len) :
    p / w < c.bits.length := by
  have h := div_lt_block_count hw hp
  have h2 := block_count_le hw (L := c.bits.length) hinv
  omega

/-- Effect of the default `set_bit` on every bit of a `BitVec`: the target
bit becomes `v`, all others are unchanged. -/
theorem set_bit_get_bit (hw : 0 < w) (c : BitVec w) (p : Nat) (v : Bool)
    (hinv : c.len ≤ c.bits.length * w) (hp : p < c.len) (q : Nat) :
    (c.set_bit p v).get_bit q = if q = p then v else c.get_bit q := by
  have hpm : p % w < w := Nat.mod_lt _ hw
  have hqm : q % w < w := Nat.mod_lt _ hw
  have hsm_p := Nat.div_add_mod p w
  have hsm_q := Nat.div_add_mod q w
  have hplen : p / w < c.bits.length := div_lt_length hw c hinv hp
  rw [BitVec.set_bit, get_bit_eq hw, set_block_len, set_block_getD]
  by_cases hq : q = p
  · subst hq
    rw [if_pos ⟨rfl, hplen⟩, if_pos rfl,
      testBit_with_bit _ _ _ _ hpm (fun j hj => get_block_testBit_high hw c _ j hj),
      if_pos rfl]
    simp [hp]
  · rw [if_neg hq]
    by_cases hblk : q / w = p / w
    · rw [if_pos ⟨hblk, hplen⟩,
        testBit_with_bit _ _ _ _ hpm (fun j hj => get_block_testBit_high hw c _ j hj)]
      have hq_eq : w * (p / w) + q % w = q := by
        rw [← hblk]
        exact hsm_q
      have hqm' : ¬ q % w = p % w := by
        intro hcon
        apply hq
        omega
      rw [if_neg hqm', get_block_testBit hw, get_bit_eq hw, hblk]
      rcases Nat.lt_or_ge q c.len with hql | hql
      · simp only [decide_eq_true hql, Bool.true_and]
        rw [decide_eq_true (show w * (p / w) + q % w < c.len ∧ q % w < w from by omega),
          Bool.true_and]
      · simp [Nat.not_lt.mpr hql]
    · rw [if_neg (fun hcon => hblk hcon.1), get_bit_eq hw]

theorem set_bits_len (c : BitVec w) (start count v : Nat) :
    (c.set_bits start count v).len = c.len := by
  simp only [BitVec.set_bits]
  split <;> rfl

/-- Effect of the default `set_bits` on every bit of a `BitVec`: the bits
of the span become the low `count` bits of `value`, all others are
unchanged. -/
theorem set_bits_get_bit (hw : 0 < w) (c : BitVec w) (start count v : Nat)
    (hinv : c.len ≤ c.bits.length * w) (hcount : count ≤ w)
    (hspan : start + count ≤ c.len) (p : Nat) :
    (c.set_bits start count v).get_bit p =
      if start ≤ p ∧ p < start + count then v.testBit (p - start)
      else c.get_bit p := by
  rcases Nat.lt_or_ge p c.len with hp | hp
  case inr =>
    have h1 : (c.set_bits start count v).get_bit p = false :=
      get_bit_of_le_len hw _ p (by rw [set_bits_len]; exact hp)
    have h2 : ¬ (start ≤ p ∧ p < start + count) := by omega
    rw [h1, if_neg h2, get_bit_of_le_len hw c p hp]
  case inl =>
  have hoff : start % w < w := Nat.mod_lt _ hw
  have hpm : p % w < w := Nat.mod_lt _ hw
  have hsm_p := Nat.div_add_mod p w
  have hsm_s := Nat.div_add_mod start w
  have hbl : block_count_for w c.len ≤ c.bits.length := block_count_le hw hinv
  have hmul : w * (start / w + 1) = w * (start / w) + w := by ring
  simp only [BitVec.set_bits]
  by_cases hone : count ≤ w - start % w
  · rw [if_pos hone, get_bit_eq hw, set_block_len, set_block_getD]
    by_cases hblk : p / w = start / w ∧ start / w < c.bits.length
    · obtain ⟨hb1, hb2⟩ := hblk
      rw [hb1] at hsm_p
      rw [if_pos ⟨hb1, hb2⟩,
        testBit_with_bits _ _ _ _ _ (by omega : start % w + count ≤ w)]
      have hkey : (start ≤ p ∧ p < start + count) ↔
          (start % w ≤ p % w ∧ p % w - start % w < count) := by omega
      by_cases hr : start ≤ p ∧ p < start + count
      · rw [if_pos hr, if_pos (hkey.mp hr)]
        simp only [decide_eq_true hp, Bool.true_and]
        congr 1
        omega
      · rw [if_neg hr, if_neg (fun hcon => hr (hkey.mpr hcon)),
          get_block_testBit hw, get_bit_eq hw, hb1]
        simp only [decide_eq_true hp, Bool.true_and]
        rw [decide_eq_true
          (show w * (start / w) + p % w < c.len ∧ p % w < w from by omega),
          Bool.true_and]
        rw [decide_eq_true hpm, Bool.and_true]
    · have hnr : ¬ (start ≤ p ∧ p < start + count) := by
        intro hr
        apply hblk
        obtain ⟨hd, _⟩ := divmod_lo hw start (p - start) (by omega)
        rw [show start + (p - start) = p from by omega] at hd
        exact ⟨hd, div_lt_length hw c hinv (show start < c.len by omega)⟩
      rw [if_neg hblk, if_neg hnr, get_bit_eq hw]
  · rw [if_neg hone, get_bit_eq hw, set_block_len, set_block_len, set_block_getD,
      set_block_getD]
    simp only [BitVec.set_block, List.length_set]
    have hidx1len : start / w + 1 < c.bits.length := by
      have h1 : w * (start / w + 1) < c.len := by omega
      have h2 := div_lt_block_count hw h1
      rw [Nat.mul_div_cancel_left _ hw] at h2
      omega
    by_cases hr : start ≤ p ∧ p < start + count
    · rw [if_pos hr]
      rcases Nat.lt_or_ge (p - start) (w - start % w) with hcase | hcase
      · obtain ⟨hd, hm'⟩ := divmod_lo hw start (p - start) (by omega)
        rw [show start + (p - start) = p from by omega] at hd hm'
        rw [if_neg (by omega : ¬ (p / w = start / w + 1 ∧ start / w + 1 < c.bits.length)),
          if_pos ⟨hd, by omega⟩,
          testBit_with_bits _ _ _ _ _ (by omega : start % w + (w - start % w) ≤ w),
          if_pos (by omega : start % w ≤ p % w ∧ p % w - start % w < w - start % w)]
        simp only [decide_eq_true hp, Bool.true_and]
        congr 1
        omega
      · obtain ⟨hd, hm'⟩ := divmod_hi hw start (p - start) (by omega) (by omega)
        rw [show start + (p - start) = p from by omega] at hd hm'
        rw [if_pos ⟨hd, hidx1len⟩,
          testBit_with_bits _ _ _ _ _ (by omega : 0 + (count - (w - start % w)) ≤ w),
          if_pos (by omega : 0 ≤ p % w ∧ p % w - 0 < count - (w - start % w))]
        simp only [decide_eq_true hp, Bool.true_and, Nat.testBit_shiftRight,
          Nat.sub_zero]
        congr 1
        omega
    · rw [if_neg hr]
      by_cases h2 : p / w = start / w + 1 ∧ start / w + 1 < c.bits.length
      · have hd := h2.1
        rw [hd] at hsm_p
        rw [if_pos h2,
          testBit_with_bits _ _ _ _ _ (by omega : 0 + (count - (w - start % w)) ≤ w)]
        have hreg : ¬ (0 ≤ p % w ∧ p % w - 0 < count - (w - start % w)) := by
          intro hcon
          apply hr
          omega
        rw [if_neg hreg, get_block_testBit hw, get_bit_eq hw, hd]
        simp only [decide_eq_true hp, Bool.true_and]
        rw [decide_eq_true
          (show w * (start / w + 1) + p % w < c.len ∧ p % w < w from by omega),
          Bool.true_and]
        rw [decide_eq_true hpm, Bool.and_true]
      · rw [if_neg h2]
        by_cases h3 : p / w = start / w ∧ start / w < c.bits.length
        · have hd := h3.1
          rw [hd] at hsm_p
          rw [if_pos h3,
            testBit_with_bits _ _ _ _ _ (by omega : start % w + (w - start % w) ≤ w)]
          have hreg : ¬ (start % w ≤ p % w ∧ p % w - start % w < w - start % w) := by
            intro hcon
            apply hr
            omega
          rw [if_neg hreg, get_block_testBit hw, get_bit_eq hw, hd]
          simp only [decide_eq_true hp, Bool.true_and]
          rw [decide_eq_true
            (show w * (start / w) + p % w < c.len ∧ p % w < w from by omega),
            Bool.true_and]
          rw [decide_eq_true hpm, Bool.and_true]
        · rw [if_neg h3, get_bit_eq hw]

theorem div_eq_of_between (hw : 0 < w) {p q : Nat} (h1 : w * q ≤ p)
    (h2 : p < w * q + w) : p / w = q := by
  apply Nat.div_eq_of_lt_le
  · rw [Nat.mul_comm]
    omega
  · rw [Nat.mul_comm]
    have : w * (q + 1) = w * q + w := by ring
    omega

theorem get_bit_congr (hw : 0 < w) (c d : BitVec w) (hlen : c.len = d.len)
    (hbits : ∀ j, c.bits.getD j 0 = d.bits.getD j 0) (p : Nat) :
    c.get_bit p = d.get_bit p := by
  rw [get_bit_eq hw, get_bit_eq hw, hlen, hbits]

/-- Full behaviour of the (spec-modelled) `BitVec::push`: the length grows
by one, the invariant is preserved, the new last bit is `value` and all
other bits are unchanged. -/
theorem push_spec (hw : 0 < w) (c : BitVec w) (b : Bool)
    (hinv : c.len ≤ c.bits.length * w) :
    (c.push b).len = c.len + 1 ∧
    c.len + 1 ≤ (c.push b).bits.length * w ∧
    ∀ p, (c.push b).get_bit p = if p = c.len then b else c.get_bit p := by
  by_cases hg : c.len = c.bits.length * w
  case pos =>
    have hpush : c.push b =
        BitVec.set_bit ⟨c.bits ++ [0], c.len + 1⟩ c.len b := by
      simp [BitVec.push, hg]
    have hdinv : (⟨c.bits ++ [0], c.len + 1⟩ : BitVec w).len ≤
        (⟨c.bits ++ [0], c.len + 1⟩ : BitVec w).bits.length * w := by
      show c.len + 1 ≤ (c.bits ++ [0]).length * w
      have hlen : (c.bits ++ [0]).length = c.bits.length + 1 := by simp
      rw [hlen]
      have hm : (c.bits.length + 1) * w = c.bits.length * w + w := by ring
      omega
    have hdraw : ∀ j, ((⟨c.bits ++ [0], c.len + 1⟩ : BitVec w)).bits.getD j 0 =
        c.bits.getD j 0 := by
      intro j
      show (c.bits ++ [0]).getD j 0 = c.bits.getD j 0
      rw [show ([0] : List Nat) = List.replicate 1 0 from rfl]
      exact getD_append_replicate_zero c.bits 1 j
    refine ⟨by rw [hpush, set_bit_len], ?_, ?_⟩
    · rw [hpush]
      show c.len + 1 ≤ (BitVec.set_bit _ c.len b).bits.length * w
      rw [BitVec.set_bit, BitVec.set_block]
      simp only [List.length_set]
      exact hdinv
    · intro p
      rw [hpush, set_bit_get_bit hw _ c.len b hdinv
        (show c.len < c.len + 1 from by omega) p]
      by_cases hp : p = c.len
      · rw [if_pos hp, if_pos hp]
      · rw [if_neg hp, if_neg hp]
        rw [get_bit_eq hw, get_bit_eq hw, hdraw]
        show (decide (p < c.len + 1) && _) = (decide (p < c.len) && _)
        congr 1
        simp only [decide_eq_decide]
        omega
  case neg =>
    have hpush : c.push b = BitVec.set_bit ⟨c.bits, c.len + 1⟩ c.len b := by
      simp [BitVec.push, hg]
    have hdinv : (⟨c.bits, c.len + 1⟩ : BitVec w).len ≤
        (⟨c.bits, c.len + 1⟩ : BitVec w).bits.length * w := by
      show c.len + 1 ≤ c.bits.length * w
      omega
    refine ⟨by rw [hpush, set_bit_len], ?_, ?_⟩
    · rw [hpush]
      show c.len + 1 ≤ (BitVec.set_bit _ c.len b).bits.length * w
      rw [BitVec.set_bit, BitVec.set_block]
      simp only [List.length_set]
      exact hdinv
    · intro p
      rw [hpush, set_bit_get_bit hw _ c.len b hdinv
        (show c.len < c.len + 1 from by omega) p]
      by_cases hp : p = c.len
      · rw [if_pos hp, if_pos hp]
      · rw [if_neg hp, if_neg hp]
        rw [get_bit_eq hw, get_bit_eq hw]
        show (decide (p < c.len + 1) && _) = (decide (p < c.len) && _)
        congr 1
        simp only [decide_eq_decide]
        omega

theorem align_block_len (hw : 0 < w) (c : BitVec w) (v : Bool) :
    (c.align_block v).len = c.len + (w - c.len % w) % w := by
  simp only [BitVec.align_block]
  by_cases hk : 0 < c.len % w
  · rw [if_pos hk]
    show c.len + (w - c.len % w) = _
    have hkw : c.len % w < w := Nat.mod_lt _ hw
    rw [Nat.mod_eq_of_lt (show w - c.len % w < w from by omega)]
  · rw [if_neg hk]
    have h0 : c.len % w = 0 := by omega
    rw [h0, Nat.sub_zero, Nat.mod_self, Nat.add_zero]

theorem align_block_len_aligned (hw : 0 < w) (c : BitVec w) (v : Bool) :
    (c.align_block v).len % w = 0 := by
  rw [align_block_len hw]
  have hsm_l := Nat.div_add_mod c.len w
  by_cases hk : c.len % w = 0
  · rw [hk, Nat.sub_zero, Nat.mod_self, Nat.add_zero]
    exact hk
  · have hkw : c.len % w < w := Nat.mod_lt _ hw
    rw [Nat.mod_eq_of_lt (show w - c.len % w < w from by omega)]
    have h1 : c.len + (w - c.len % w) = w * (c.len / w) + w := by omega
    rw [h1, show w * (c.len / w) + w = w * (c.len / w + 1) from by ring]
    exact Nat.mul_mod_right _ _

theorem align_block_inv (hw : 0 < w) (c : BitVec w) (v : Bool)
    (hinv : c.len ≤ c.bits.length * w) :
    (c.align_block v).len ≤ (c.align_block v).bits.length * w := by
  have hbl := block_count_le hw hinv
  simp only [BitVec.align_block]
  by_cases hk : 0 < c.len % w
  · rw [if_pos hk]
    show c.len + (w - c.len % w) ≤ (c.bits.set _ _).length * w
    simp only [List.length_set]
    have hkw : c.len % w < w := Nat.mod_lt _ hw
    have hsm_l := Nat.div_add_mod c.len w
    have hbu : block_count_for w c.len = c.len / w + 1 :=
      block_count_unaligned hw (by omega)
    have h2 : (c.len / w + 1) * w = w * (c.len / w) + w := by ring
    have h3 : c.len / w + 1 ≤ c.bits.length := by omega
    calc c.len + (w - c.len % w) = w * (c.len / w) + w := by omega
      _ = (c.len / w + 1) * w := by rw [h2]
      _ ≤ c.bits.length * w := Nat.mul_le_mul_right _ h3
  · rw [if_neg hk]
    exact hinv

/-- Full behaviour of the `BitVec` specialization of `align_block`
(`bit_vec/impls.rs`) on every bit: bits below the old length are unchanged,
the padding region reads `value`. -/
theorem align_block_get_bit (hw : 0 < w) (c : BitVec w) (v : Bool)
    (hinv : c.len ≤ c.bits.length * w) (p : Nat) :
    (c.align_block v).get_bit p =
      if p < c.len then c.get_bit p
      else (decide (p < c.len + (w - c.len % w) % w) && v) := by
  have hpm : p % w < w := Nat.mod_lt _ hw
  have hsm_p := Nat.div_add_mod p w
  have hsm_l := Nat.div_add_mod c.len w
  by_cases hk : 0 < c.len % w
  case neg =>
    have h0 : c.len % w = 0 := by omega
    have halign : c.align_block v = c := by
      simp only [BitVec.align_block]
      rw [if_neg hk]
    rw [halign]
    by_cases hp : p < c.len
    · rw [if_pos hp]
    · rw [if_neg hp, get_bit_of_le_len hw c p (by omega), h0, Nat.sub_zero,
        Nat.mod_self, Nat.add_zero]
      simp [hp]
  case pos =>
    have hkw : c.len % w < w := Nat.mod_lt _ hw
    have hmod : (w - c.len % w) % w = w - c.len % w := Nat.mod_eq_of_lt (by omega)
    have hbu : block_count_for w c.len = c.len / w + 1 :=
      block_count_unaligned hw (by omega)
    have hli : c.len / w < c.bits.length := by
      have h1 : w * (c.len / w) < c.len := by omega
      have h2 := div_lt_length hw c hinv h1
      rwa [Nat.mul_div_cancel_left _ hw] at h2
    have hstate : c.align_block v =
        ⟨c.bits.set (c.len / w)
          (if v then c.bits.getD (c.len / w) 0 ||| ((2 ^ w - 1) ^^^ low_mask (c.len % w))
           else c.bits.getD (c.len / w) 0 &&& low_mask (c.len % w)),
         c.len + (w - c.len % w)⟩ := by
      simp only [BitVec.align_block]
      rw [if_pos hk, BitVec.block_len, hbu, Nat.add_sub_cancel]
    rw [hstate, get_bit_eq hw]
    show (decide (p < c.len + (w - c.len % w)) &&
        ((c.bits.set (c.len / w) _).getD (p / w) 0).testBit (p % w)) = _
    rw [getD_set]
    by_cases hp : p < c.len
    · rw [if_pos hp, decide_eq_true (show p < c.len + (w - c.len % w) from by omega),
        Bool.true_and]
      by_cases hpd : p / w = c.len / w
      · rw [hpd] at hsm_p
        have ho : p % w < c.len % w := by omega
        rw [if_pos ⟨hpd, hli⟩, get_bit_eq hw, decide_eq_true hp, Bool.true_and, hpd]
        cases v
        · simp only [Bool.false_eq_true, if_false, low_mask, Nat.testBit_land,
            Nat.testBit_two_pow_sub_one, decide_eq_true ho, Bool.and_true]
        · simp only [if_true, low_mask, Nat.testBit_or, Nat.testBit_xor,
            Nat.testBit_two_pow_sub_one, decide_eq_true ho,
            decide_eq_true (show p % w < w from hpm)]
          simp
      · rw [if_neg (fun hcon => hpd hcon.1), get_bit_eq hw, decide_eq_true hp,
          Bool.true_and]
    · rw [if_neg hp, hmod]
      by_cases hp2 : p < c.len + (w - c.len % w)
      · have hpd : p / w = c.len / w := div_eq_of_between hw (by omega) (by omega)
        rw [hpd] at hsm_p
        have ho : ¬ p % w < c.len % w := by omega
        rw [decide_eq_true hp2, Bool.true_and, Bool.true_and, if_pos ⟨hpd, hli⟩]
        cases v
        · simp only [Bool.false_eq_true, if_false, low_mask, Nat.testBit_land,
            Nat.testBit_two_pow_sub_one, Bool.and_false]
          simp [ho]
        · simp only [if_true, low_mask, Nat.testBit_or, Nat.testBit_xor,
            Nat.testBit_two_pow_sub_one, decide_eq_true (show p % w < w from hpm)]
          simp [ho]
      · rw [decide_eq_false (by omega : ¬ p < c.len + (w - c.len % w)),
          Bool.false_and, Bool.false_and]

theorem align_step_arith (hw : 0 < w) (n : Nat) (h : ¬ n % w = 0) :
    n + 1 + (w - (n + 1) % w) % w = n + (w - n % w) % w := by
  have hr : n % w < w := Nat.mod_lt _ hw
  have hw2 : 2 ≤ w := by omega
  have h1 : (n + 1) % w = (n % w + 1) % w := by
    rw [Nat.add_mod, Nat.mod_eq_of_lt (show (1 : Nat) < w by omega)]
  rcases Nat.lt_or_ge (n % w + 1) w with h2 | h2
  · rw [h1, Nat.mod_eq_of_lt h2,
      Nat.mod_eq_of_lt (show w - (n % w + 1) < w by omega),
      Nat.mod_eq_of_lt (show w - n % w < w by omega)]
    omega
  · have h3 : n % w + 1 = w := by omega
    rw [h1, h3, Nat.mod_self, Nat.sub_zero, Nat.mod_self,
      Nat.mod_eq_of_lt (show w - n % w < w by omega)]
    omega

theorem align_block_default_spec_aux (hw : 0 < w) (v : Bool) (fuel : Nat) :
    ∀ c : BitVec w, (w - c.len % w) % w < fuel → c.len ≤ c.bits.length * w →
    (BitVec.align_block_default hw c v).len = c.len + (w - c.len % w) % w ∧
    (BitVec.align_block_default hw c v).len ≤
      (BitVec.align_block_default hw c v).bits.length * w ∧
    ∀ p, (BitVec.align_block_default hw c v).get_bit p =
      if p < c.len then c.get_bit p
      else (decide (p < c.len + (w - c.len % w) % w) && v) := by
  induction fuel with
  | zero => intro c hm _; omega
  | succ fuel ih =>
    intro c hm hinv
    by_cases h : c.len % w = 0
    · rw [BitVec.align_block_default, dif_neg (by simpa using h)]
      refine ⟨?_, hinv, ?_⟩
      · rw [h, Nat.sub_zero, Nat.mod_self, Nat.add_zero]
      · intro p
        by_cases hp : p < c.len
        · rw [if_pos hp]
        · rw [if_neg hp, h, Nat.sub_zero, Nat.mod_self, Nat.add_zero,
            get_bit_of_le_len hw c p (by omega)]
          simp [hp]
    · rw [BitVec.align_block_default, dif_pos (by simpa using h)]
      obtain ⟨hl, hi, hb⟩ := push_spec hw c v hinv
      have hmeas : (w - (c.push v).len % w) % w < fuel := by
        rw [hl]
        have := align_measure_lt hw c.len h
        omega
      obtain ⟨ihl, ihi, ihb⟩ := ih (c.push v) hmeas (by rw [← hl] at hi; exact hi)
      have hstep : c.len + 1 + (w - (c.len + 1) % w) % w =
          c.len + (w - c.len % w) % w := align_step_arith hw c.len h
      refine ⟨by rw [ihl, hl, hstep], ihi, ?_⟩
      intro p
      rw [ihb p, hb p, hl, hstep]
      by_cases hp : p < c.len
      · rw [if_pos (show p < c.len + 1 by omega),
          if_neg (show ¬ p = c.len by omega), if_pos hp]
      · rw [if_neg hp]
        by_cases hpe : p = c.len
        · rw [if_pos (show p < c.len + 1 by omega), if_pos hpe]
          have hplt : p < c.len + (w - c.len % w) % w := by
            have hkw : c.len % w < w := Nat.mod_lt _ hw
            rw [Nat.mod_eq_of_lt (show w - c.len % w < w from by omega)]
            omega
          rw [decide_eq_true hplt, Bool.true_and]
        · rw [if_neg (show ¬ p < c.len + 1 by omega)]

/-- Full behaviour of the default `align_block` of `traits.rs` (the
push-one-bit-at-a-time loop): same length formula and bit values as the
specialized version. -/
theorem align_block_default_spec (hw : 0 < w) (c : BitVec w) (v : Bool)
    (hinv : c.len ≤ c.bits.length * w) :
    (BitVec.align_block_default hw c v).len = c.len + (w - c.len % w) % w ∧
    (BitVec.align_block_default hw c v).len ≤
      (BitVec.align_block_default hw c v).bits.length * w ∧
    ∀ p, (BitVec.align_block_default hw c v).get_bit p =
      if p < c.len then c.get_bit p
      else (decide (p < c.len + (w - c.len % w) % w) && v) :=
  align_block_default_spec_aux hw v ((w - c.len % w) % w + 1) c (by omega) hinv

theorem push_bits_loop_spec (hw : 0 < w) :
    ∀ (k : Nat) (c : BitVec w) (value : Nat), c.len ≤ c.bits.length * w →
    (BitVec.push_bits_loop c value k).len = c.len + k ∧
    (BitVec.push_bits_loop c value k).len ≤
      (BitVec.push_bits_loop c value k).bits.length * w ∧
    ∀ p, (BitVec.push_bits_loop c value k).get_bit p =
      if c.len ≤ p ∧ p < c.len + k then value.testBit (p - c.len)
      else c.get_bit p := by
  intro k
  induction k with
  | zero =>
    intro c value hinv
    refine ⟨rfl, hinv, ?_⟩
    intro p
    rw [if_neg (by omega)]
    rfl
  | succ k ih =>
    intro c value hinv
    have hunf : BitVec.push_bits_loop c value (k + 1) =
        BitVec.push_bits_loop (c.push (decide (value &&& 1 ≠ 0))) (value >>> 1) k :=
      rfl
    rw [hunf]
    obtain ⟨hl, hi, hb⟩ := push_spec hw c (decide (value &&& 1 ≠ 0)) hinv
    obtain ⟨ihl, ihi, ihb⟩ := ih (c.push (decide (value &&& 1 ≠ 0))) (value >>> 1)
      (by rw [← hl] at hi; exact hi)
    have hbit0 : (decide (value &&& 1 ≠ 0)) = value.testBit 0 := by
      rw [Nat.and_one_is_mod, Nat.testBit_zero]
      rcases Nat.mod_two_eq_zero_or_one value with h | h <;> simp [h]
    refine ⟨by rw [ihl, hl]; omega, ihi, ?_⟩
    intro p
    rw [ihb p, hl]
    by_cases hp1 : c.len + 1 ≤ p ∧ p < c.len + 1 + k
    · rw [if_pos hp1, if_pos (by omega : c.len ≤ p ∧ p < c.len + (k + 1)),
        Nat.testBit_shiftRight]
      congr 1
      omega
    · rw [if_neg hp1, hb p]
      by_cases hpe : p = c.len
      · rw [if_pos hpe, if_pos (by omega : c.len ≤ p ∧ p < c.len + (k + 1)), hbit0,
          hpe, Nat.sub_self]
      · rw [if_neg hpe, if_neg (by omega : ¬ (c.len ≤ p ∧ p < c.len + (k + 1)))]

theorem get_bits_self (hv : b < 2 ^ w) : Block.get_bits b 0 w = b := by
  apply Nat.eq_of_testBit_eq
  intro i
  rw [testBit_get_bits, Nat.zero_add]
  by_cases hi : i < w
  · simp [hi]
  · rw [Nat.testBit_lt_two_pow
      (lt_of_lt_of_le hv (Nat.pow_le_pow_right (by omega) (by omega)))]
    simp [hi]

theorem push_block_state (hw : 0 < w) (c : BitVec w) (value : Nat) :
    c.push_block value =
      ⟨((c.align_block false).bits ++
          List.replicate ((c.align_block false).block_len + 1 -
            (c.align_block false).bits.length) 0).set
        ((c.align_block false).len / w) value,
       (c.align_block false).len + w⟩ := by
  have hA : (c.align_block false).len % w = 0 := align_block_len_aligned hw c false
  have hbl3 : block_count_for w ((c.align_block false).len + w)
      = (c.align_block false).len / w + 1 := by
    rw [block_count_aligned hw (by rw [Nat.add_mod_right]; exact hA),
      Nat.add_div_right _ hw]
  show BitVec.set_block _ (block_count_for w ((c.align_block false).len + w) - 1)
      value = _
  rw [hbl3, Nat.add_sub_cancel]
  rfl

theorem push_block_len (hw : 0 < w) (c : BitVec w) (value : Nat) :
    (c.push_block value).len = (c.align_block false).len + w := by
  rw [push_block_state hw]

theorem reserve_length_lt (hw : 0 < w) (c : BitVec w) :
    (c.align_block false).len / w <
      ((c.align_block false).bits ++
        List.replicate ((c.align_block false).block_len + 1 -
          (c.align_block false).bits.length) 0).length := by
  have hA : (c.align_block false).len % w = 0 := align_block_len_aligned hw c false
  have hblA : (c.align_block false).block_len = (c.align_block false).len / w := by
    rw [BitVec.block_len, block_count_aligned hw hA]
  rw [List.length_append, List.length_replicate, hblA]
  omega

/-- `push_block` followed by `get_block` at the new last index returns the
pushed block value. -/
theorem push_block_get_block_last (hw : 0 < w) (c : BitVec w) (value : Nat)
    (hv : value < 2 ^ w) :
    (c.push_block value).get_block ((c.push_block value).block_len - 1) = value := by
  have hA : (c.align_block false).len % w = 0 := align_block_len_aligned hw c false
  have hsm_A := Nat.div_add_mod (c.align_block false).len w
  have hbl3 : block_count_for w ((c.align_block false).len + w)
      = (c.align_block false).len / w + 1 := by
    rw [block_count_aligned hw (by rw [Nat.add_mod_right]; exact hA),
      Nat.add_div_right _ hw]
  rw [push_block_state hw]
  show BitVec.get_block _ (block_count_for w ((c.align_block false).len + w) - 1)
      = value
  rw [hbl3, Nat.add_sub_cancel, BitVec.get_block]
  show Block.get_bits
      (((_ : List Nat).set ((c.align_block false).len / w) value).getD
        ((c.align_block false).len / w) 0) 0
      (block_bits w ((c.align_block false).len + w)
        ((c.align_block false).len / w)) = value
  rw [getD_set, if_pos ⟨rfl, reserve_length_lt hw c⟩]
  have hbb : block_bits w ((c.align_block false).len + w)
      ((c.align_block false).len / w) = w := by
    rw [block_bits]
    omega
  rw [hbb]
  exact get_bits_self hv

/-- Full behaviour of the `BitVec` specialization of `push_block`
(`bit_vec/impls.rs`) on every bit. -/
theorem push_block_get_bit (hw : 0 < w) (c : BitVec w) (value : Nat) (p : Nat) :
    (c.push_block value).get_bit p =
      if p < (c.align_block false).len then (c.align_block false).get_bit p
      else (decide (p < (c.align_block false).len + w) &&
        value.testBit (p - (c.align_block false).len)) := by
  have hA : (c.align_block false).len % w = 0 := align_block_len_aligned hw c false
  have hsm_A := Nat.div_add_mod (c.align_block false).len w
  have hsm_p := Nat.div_add_mod p w
  have hpm : p % w < w := Nat.mod_lt _ hw
  rw [push_block_state hw, get_bit_eq hw]
  show (decide (p < (c.align_block false).len + w) &&
      ((_ : List Nat).getD (p / w) 0).testBit (p % w)) = _
  rw [getD_set]
  by_cases hp : p < (c.align_block false).len
  · rw [if_pos hp]
    have hdiv : p / w < (c.align_block false).len / w := by
      rw [Nat.div_lt_iff_lt_mul hw, Nat.mul_comm]
      omega
    rw [decide_eq_true (show p < (c.align_block false).len + w from by omega),
      Bool.true_and, get_bit_eq hw, decide_eq_true hp, Bool.true_and]
    split
    · next hcon =>
        exfalso
        omega
    · next _ =>
        rw [getD_append_replicate_zero]
  · rw [if_neg hp]
    by_cases hp2 : p < (c.align_block false).len + w
    · have hdiv : p / w = (c.align_block false).len / w :=
        div_eq_of_between hw (by omega) (by omega)
      rw [if_pos ⟨hdiv, reserve_length_lt hw c⟩, decide_eq_true hp2]
      simp only [Bool.true_and]
      congr 1
      rw [hdiv] at hsm_p
      omega
    · rw [decide_eq_false hp2, Bool.false_and, Bool.false_and]

/-- Success of the checked `get_bits` whenever the span is in range, except
at the degenerate point `start = bit_len` with `bit_len` block-aligned
(where the inner `get_block` assert fires). -/
theorem get_bits_checked_some (hw : 0 < w) (m : BitsModel w) (start count : Nat)
    (hcount : count ≤ w) (hspan : start + count ≤ m.bit_len)
    (hdeg : ¬ (start = m.bit_len ∧ m.bit_len % w = 0)) :
    m.get_bits_checked start count = some (m.get_bits start count) := by
  have hoff : start % w < w := Nat.mod_lt _ hw
  have hsm_s := Nat.div_add_mod start w
  have hidx : start / w < m.block_len := by
    rcases Nat.lt_or_ge start m.bit_len with h | h
    · exact div_lt_block_count hw h
    · have he : start = m.bit_len := by omega
      have hnz : m.bit_len % w ≠ 0 := fun hz => hdeg ⟨he, hz⟩
      rw [BitsModel.block_len, block_count_unaligned hw hnz, he]
      omega
  simp only [BitsModel.get_bits_checked, BitsModel.get_bits, if_pos hspan]
  by_cases hm : count ≤ w - start % w
  · rw [if_pos hm, if_pos hm, BitsModel.get_block_checked, if_pos hidx]
    rfl
  · have hidx1 : start / w + 1 < m.block_len := by
      have hmul : w * (start / w + 1) = w * (start / w) + w := by ring
      have h1 : w * (start / w + 1) < m.bit_len := by omega
      have h2 := div_lt_block_count hw h1
      rwa [Nat.mul_div_cancel_left _ hw] at h2
    rw [if_neg hm, if_neg hm, BitsModel.get_block_checked, if_pos hidx,
      BitsModel.get_block_checked, if_pos hidx1]
    rfl

/-- Success of the checked `set_bits` of `BitVec` under the same
conditions. -/
theorem set_bits_checked_some (hw : 0 < w) (c : BitVec w) (start count value : Nat)
    (hcount : count ≤ w) (hspan : start + count ≤ c.len)
    (hdeg : ¬ (start = c.len ∧ c.len % w = 0)) :
    c.set_bits_checked start count value = some (c.set_bits start count value) := by
  have hoff : start % w < w := Nat.mod_lt _ hw
  have hsm_s := Nat.div_add_mod start w
  have hidx : start / w < c.block_len := by
    rcases Nat.lt_or_ge start c.len with h | h
    · exact div_lt_block_count hw h
    · have he : start = c.len := by omega
      have hnz : c.len % w ≠ 0 := fun hz => hdeg ⟨he, hz⟩
      rw [BitVec.block_len, block_count_unaligned hw hnz, he]
      omega
  simp only [BitVec.set_bits_checked, BitVec.set_bits, if_pos hspan]
  by_cases hm : count ≤ w - start % w
  · rw [if_pos hm, if_pos hm, BitVec.get_block_checked, if_pos hidx,
      Option.some_bind, BitVec.set_block_checked, if_pos hidx]
  · have hidx1 : start / w + 1 < c.block_len := by
      have hmul : w * (start / w + 1) = w * (start / w) + w := by ring
      have h1 : w * (start / w + 1) < c.len := by omega
      have h2 := div_lt_block_count hw h1
      rwa [Nat.mul_div_cancel_left _ hw] at h2
    rw [if_neg hm, if_neg hm, BitVec.get_block_checked, if_pos hidx,
      Option.some_bind, BitVec.get_block_checked, if_pos hidx1,
      Option.some_bind, BitVec.set_block_checked, if_pos hidx, Option.some_bind,
      BitVec.set_block_checked,
      if_pos (show start / w + 1 < BitVec.block_len (BitVec.set_block c (start / w)
        (Block.with_bits w (c.get_block (start / w)) (start % w)
          (w - start % w) value)) from hidx1)]

/-- Reading back a span just written by `set_bits` yields the low `count`
bits of the written value. -/
theorem set_bits_get_bits (hw : 0 < w) (c : BitVec w) (start count value : Nat)
    (hinv : c.len ≤ c.bits.length * w) (hcount : count ≤ w)
    (hspan : start + count ≤ c.len) :
    (c.set_bits start count value).get_bits start count =
      value &&& low_mask count := by
  apply Nat.eq_of_testBit_eq
  intro i
  rw [BitVec.get_bits, get_bits_testBit hw _ start count hcount i]
  have hgb : (c.set_bits start count value).toModel.get_bit (start + i) =
      (c.set_bits start count value).get_bit (start + i) := rfl
  rw [hgb, set_bits_get_bit hw c start count value hinv hcount hspan (start + i)]
  simp only [low_mask, Nat.testBit_land, Nat.testBit_two_pow_sub_one]
  by_cases hi : i < count
  · rw [if_pos (show start ≤ start + i ∧ start + i < start + count from by omega),
      decide_eq_true hi, Bool.true_and, Bool.and_true,
      show start + i - start = i from by omega]
  · rw [decide_eq_false hi, Bool.false_and, Bool.and_false]

/-! ### The `Inner` storage container (`bit_vec/inner.rs`) -/

/-- The `Inner` storage type (`bit_vec/inner.rs`): an optional heap
allocation of blocks, `none` representing a zero-capacity container without
an allocation. -/
structure Inner where
  val : Option (List Nat)

/-- `Inner::invariant` (`bit_vec/inner.rs`): a present allocation is
non-empty. -/
def Inner.invariant (s : Inner) : Bool :=
  match s.val with
  | some b => decide (0 < b.length)
  | none => true

/-- `Inner::new` (`bit_vec/inner.rs`): `none` for zero blocks, otherwise a
buffer of `nblocks` copies of `init`. -/
def Inner.new (init nblocks : Nat) : Inner :=
  ⟨if nblocks = 0 then none else some (List.replicate nblocks init)⟩

/-- `Inner::len` (`bit_vec/inner.rs`). -/
def Inner.len (s : Inner) : Nat :=
  match s.val with
  | some b => b.length
  | none => 0

/-- The `Index` impl of `Inner` (`bit_vec/inner.rs`): element access
panics on an absent buffer (the "empty access" branch) and on an index at
or past the buffer length (slice indexing); both panics are modelled as
`none`. -/
def Inner.index_checked (s : Inner) (i : Nat) : Option Nat :=
  match s.val with
  | some b => b[i]?
  | none => none

/-- The copy loop of `Inner::clone_resize` (`bit_vec/inner.rs`):
`for i in 0 .. min(len, new_cap) do result[i] = self[i]`, here performing
`n` remaining iterations starting at index `i`, with the source's
panicking indexing threaded through `Option`. -/
def Inner.copy_blocks (s : Inner) (i : Nat) (result : List Nat) :
    Nat → Option (List Nat)
  | 0 => some result
  | n + 1 =>
    (s.index_checked i).bind (fun v =>
      Inner.copy_blocks s (i + 1) (result.set i v) n)

/-- `Inner::clone_resize` (`bit_vec/inner.rs`): the absent variant when
`new_cap` is 0, otherwise a zero-filled buffer of `new_cap` blocks whose
first `min len new_cap` elements are copied from `self` element-wise; the
whole call is `none` when the copy loop panics (absent or too-short
source buffer). -/
def Inner.clone_resize_checked (s : Inner) (len new_cap : Nat) :
    Option Inner :=
  if new_cap = 0 then some ⟨none⟩
  else (Inner.copy_blocks s 0 (List.replicate new_cap 0)
      (min len new_cap)).map (fun result => ⟨some result⟩)

theorem index_checked_some (s : Inner) (i : Nat) (h : i < s.len) :
    ∃ v, s.index_checked i = some v := by
  rcases hs : s.val with _ | b
  · simp [Inner.len, hs] at h
  · simp only [Inner.len, hs] at h
    refine ⟨b.getD i 0, ?_⟩
    simp only [Inner.index_checked, hs]
    rw [List.getElem?_eq_getElem h]
    simp [List.getD_eq_getElem?_getD, List.getElem?_eq_getElem h]

/-- A successful run of the copy loop preserves the result buffer's
length. -/
theorem copy_blocks_length (s : Inner) :
    ∀ (n i : Nat) (result out : List Nat),
      Inner.copy_blocks s i result n = some out →
      out.length = result.length := by
  intro n
  induction n with
  | zero =>
    intro i result out h
    rw [show Inner.copy_blocks s i result 0 = some result from rfl] at h
    cases h
    rfl
  | succ n ih =>
    intro i result out h
    rw [show Inner.copy_blocks s i result (n + 1) =
        (s.index_checked i).bind (fun v => Inner.copy_blocks s (i + 1)
          (result.set i v) n) from rfl] at h
    cases hv : s.index_checked i with
    | none =>
      rw [hv] at h
      simp at h
    | some v =>
      rw [hv, Option.some_bind] at h
      rw [ih (i + 1) (result.set i v) out h, List.length_set]

/-- The copy loop succeeds whenever every index it touches is inside the
stored buffer. -/
theorem copy_blocks_some (s : Inner) :
    ∀ (n i : Nat) (result : List Nat), i + n ≤ s.len →
      ∃ out, Inner.copy_blocks s i result n = some out ∧
        out.length = result.length := by
  intro n
  induction n with
  | zero =>
    intro i result _
    exact ⟨result, rfl, rfl⟩
  | succ n ih =>
    intro i result h
    obtain ⟨v, hv⟩ := index_checked_some s i (by omega)
    obtain ⟨out, hout, hlen⟩ := ih (i + 1) (result.set i v) (by omega)
    refine ⟨out, ?_, by rw [hlen, List.length_set]⟩
    rw [show Inner.copy_blocks s i result (n + 1) =
        (s.index_checked i).bind (fun v => Inner.copy_blocks s (i + 1)
          (result.set i v) n) from rfl, hv, Option.some_bind]
    exact hout

/-! ### Example containers used by the claim witnesses -/

/-- The two-block example container of the test suite:
`[0b01001000, 0b11100011]` with 16 bits. -/
def mEx : BitsModel 8 := ⟨16, fun i => if i = 0 then 72 else 227⟩

/-- A block-aligned container exhibiting the degenerate empty-span panic. -/
def mDeg : BitsModel 8 := ⟨8, fun _ => 0⟩

/-- A `BitVec` with the example content `[0b01001000, 0b11100011]`. -/
def bvEx : BitVec 8 := ⟨[72, 227], 16⟩

/-- A one-block, block-aligned `BitVec`. -/
def bvDeg : BitVec 8 := ⟨[0], 8⟩

/-- A `BitVec` of 12 bits with nonzero slack bits in its last block. -/
def cSlack : BitVec 8 := ⟨[72, 227], 12⟩

/-- Same logical 12 bits as `cSlack` but different slack-bit garbage. -/
def cSlack2 : BitVec 8 := ⟨[72, 99], 12⟩

/-! ### The claims -/

/-- C1 (amended): for every container and `start`, `count` with
`count ≤ W` and `start + count ≤ bit_len`, and excluding only the
degenerate point `start = bit_len` with `bit_len` block-aligned (where the
code panics inside `get_block` despite the span check passing),
`get_bits(start, count)` returns the `count` bits starting at global bit
`start` in little-endian bit order: bit `i` of the result equals
`get_bit(start + i)` for `i < count` and the higher bits are zero; when
`W - start % W ≥ count` the result is masked out of a single block,
otherwise it combines the low `margin = W - offset` bits of the first
block with the next block's bits shifted left by `margin`. -/
theorem claim_C1 (w : Nat) (m : BitsModel w) (start count : Nat)
    (hw : 0 < w) (hcount : count ≤ w) (hspan : start + count ≤ m.bit_len)
    (hdeg : ¬ (start = m.bit_len ∧ m.bit_len % w = 0)) :
    ∃ r, m.get_bits_checked start count = some r ∧
      (∀ i, i < count → r.testBit i = m.get_bit (start + i)) ∧
      (∀ i, count ≤ i → r.testBit i = false) ∧
      (count ≤ w - start % w →
        r = Block.get_bits (m.get_block (start / w)) (start % w) count) ∧
      (w - start % w < count →
        r = (Block.get_bits (m.get_block (start / w + 1)) 0
              (count - (w - start % w)) <<< (w - start % w)) |||
            Block.get_bits (m.get_block (start / w)) (start % w)
              (w - start % w)) := by
  refine ⟨m.get_bits start count,
    get_bits_checked_some hw m start count hcount hspan hdeg, ?_, ?_, ?_, ?_⟩
  · intro i hi
    rw [get_bits_testBit hw m start count hcount i, decide_eq_true hi,
      Bool.true_and]
  · intro i hi
    rw [get_bits_testBit hw m start count hcount i,
      decide_eq_false (by omega), Bool.false_and]
  · intro hfits
    simp only [BitsModel.get_bits]
    rw [if_pos hfits]
  · intro hstr
    simp only [BitsModel.get_bits]
    rw [if_neg (by omega)]

/-- C1 counterexample: on a block-aligned container of 8 bits with `W = 8`,
the span `start = 8`, `count = 0` satisfies `count ≤ W` and
`start + count ≤ bit_len`, yet `get_bits` does not return a value: the
inner `get_block(1)` assert fires (`block_len = 1`). -/
theorem claim_C1_counterexample :
    (0 : Nat) ≤ 8 ∧ 8 + 0 ≤ mDeg.bit_len ∧
    BitsModel.get_bits_checked mDeg 8 0 = none :=
  ⟨by decide, by decide, rfl⟩

theorem claim_C1_witness :
    ((0 : Nat) < 8 ∧ (8 : Nat) ≤ 8 ∧ 4 + 8 ≤ mEx.bit_len ∧
      ¬ ((4 : Nat) = mEx.bit_len ∧ mEx.bit_len % 8 = 0)) ∧
    ∃ r, mEx.get_bits_checked 4 8 = some r ∧
      (∀ i, i < 8 → r.testBit i = mEx.get_bit (4 + i)) ∧
      (∀ i, 8 ≤ i → r.testBit i = false) ∧
      (8 ≤ 8 - 4 % 8 →
        r = Block.get_bits (mEx.get_block (4 / 8)) (4 % 8) 8) ∧
      (8 - 4 % 8 < 8 →
        r = (Block.get_bits (mEx.get_block (4 / 8 + 1)) 0
              (8 - (8 - 4 % 8)) <<< (8 - 4 % 8)) |||
            Block.get_bits (mEx.get_block (4 / 8)) (4 % 8) (8 - 4 % 8)) :=
  ⟨⟨by decide, by decide, by decide, by decide⟩,
   claim_C1 8 mEx 4 8 (by decide) (by decide) (by decide) (by decide)⟩

/-- C2 (amended): for every `BitVec` satisfying the container invariant,
all `start`, `count` with `start + count ≤ bit_len` and `count ≤ W`, and
any block value, excluding only the degenerate point `start = bit_len`
with `bit_len` block-aligned (where `set_bits` panics inside `get_block`
despite the span check passing), `set_bits(start, count, v)` succeeds and
a subsequent `get_bits(start, count)` yields `v & low_mask(count)`. -/
theorem claim_C2 (w : Nat) (c : BitVec w) (start count value : Nat)
    (hw : 0 < w) (hinv : c.len ≤ c.bits.length * w) (hcount : count ≤ w)
    (hspan : start + count ≤ c.len)
    (hdeg : ¬ (start = c.len ∧ c.len % w = 0)) :
    ∃ c2, c.set_bits_checked start count value = some c2 ∧
      c2.get_bits_checked start count = some (value &&& low_mask count) := by
  refine ⟨c.set_bits start count value,
    set_bits_checked_some hw c start count value hcount hspan hdeg, ?_⟩
  have hlen : (c.set_bits start count value).len = c.len :=
    set_bits_len c start count value
  rw [BitVec.get_bits_checked,
    get_bits_checked_some hw _ start count hcount
      (show start + count ≤ (c.set_bits start count value).toModel.bit_len from by
        show start + count ≤ (c.set_bits start count value).len
        omega)
      (show ¬ (start = (c.set_bits start count value).toModel.bit_len ∧
          (c.set_bits start count value).toModel.bit_len % w = 0) from by
        show ¬ (start = (c.set_bits start count value).len ∧
          (c.set_bits start count value).len % w = 0)
        rw [hlen]
        exact hdeg)]
  show some ((c.set_bits start count value).get_bits start count) = _
  rw [set_bits_get_bits hw c start count value hinv hcount hspan]

/-- C2 counterexample: with `W = 8` on a `BitVec` of 8 bits, the span
`start = 8`, `count = 0` satisfies the claimed preconditions but
`set_bits` does not complete: the inner `get_block(1)` assert fires. -/
theorem claim_C2_counterexample :
    (0 : Nat) ≤ 8 ∧ 8 + 0 ≤ bvDeg.len ∧
    BitVec.set_bits_checked bvDeg 8 0 255 = none :=
  ⟨by decide, by decide, rfl⟩

theorem claim_C2_witness :
    ((0 : Nat) < 8 ∧ bvEx.len ≤ bvEx.bits.length * 8 ∧ (8 : Nat) ≤ 8 ∧
      4 + 8 ≤ bvEx.len ∧ ¬ ((4 : Nat) = bvEx.len ∧ bvEx.len % 8 = 0)) ∧
    ∃ c2, bvEx.set_bits_checked 4 8 240 = some c2 ∧
      c2.get_bits_checked 4 8 = some (240 &&& low_mask 8) :=
  ⟨⟨by decide, by decide, by decide, by decide, by decide⟩,
   claim_C2 8 bvEx 4 8 240 (by decide) (by decide) (by decide) (by decide)
     (by decide)⟩

/-- C3: for every valid position `p < bit_len` and boolean `v`, after
`set_bit(p, v)` the call `get_bit(p)` returns `v`, and every other valid
position `q ≠ p` reads the same bit value as before. -/
theorem claim_C3 (w : Nat) (c : BitVec w) (p : Nat) (v : Bool) (hw : 0 < w)
    (hinv : c.len ≤ c.bits.length * w) (hp : p < c.len) :
    (c.set_bit p v).get_bit p = v ∧
    ∀ q, q < c.len → q ≠ p → (c.set_bit p v).get_bit q = c.get_bit q := by
  constructor
  · rw [set_bit_get_bit hw c p v hinv hp p, if_pos rfl]
  · intro q _ hqp
    rw [set_bit_get_bit hw c p v hinv hp q, if_neg hqp]

theorem claim_C3_witness :
    ((0 : Nat) < 8 ∧ bvEx.len ≤ bvEx.bits.length * 8 ∧ 3 < bvEx.len) ∧
    ((bvEx.set_bit 3 false).get_bit 3 = false ∧
      ∀ q, q < bvEx.len → q ≠ 3 →
        (bvEx.set_bit 3 false).get_bit q = bvEx.get_bit q) :=
  ⟨⟨by decide, by decide, by decide⟩,
   claim_C3 8 bvEx 3 false (by decide) (by decide) (by decide)⟩

/-- C4: `get_bit`, `get_block`, `get_bits`, `set_bit`, `set_block` and
`set_bits` all fail for any bit position, block index or bit span
exceeding the logical length — universally over every out-of-range
position `p ≥ bit_len`, every out-of-range block index `i ≥ block_len`
and every span with `start + count > bit_len`, which covers in particular
the boundary values `bit_len` and `bit_len + 1` (resp. `block_len` and
`block_len + 1`), also stated explicitly; the two-block operations
validate the full span up front, so a failed validation performs no block
write and leaves the container unchanged. -/
theorem claim_C4 (w : Nat) (c : BitVec w) (value : Nat) (b : Bool) :
    (∀ p, c.len ≤ p →
      c.get_bit_checked p = none ∧ c.set_bit_checked p b = none) ∧
    (∀ i, c.block_len ≤ i →
      c.get_block_checked i = none ∧ c.set_block_checked i value = none) ∧
    (c.get_bit_checked c.len = none ∧
      c.get_bit_checked (c.len + 1) = none ∧
      c.set_bit_checked c.len b = none ∧
      c.set_bit_checked (c.len + 1) b = none ∧
      c.get_block_checked c.block_len = none ∧
      c.get_block_checked (c.block_len + 1) = none ∧
      c.set_block_checked c.block_len value = none ∧
      c.set_block_checked (c.block_len + 1) value = none) ∧
    (∀ start count, c.len < start + count →
      c.get_bits_checked start count = none ∧
      c.set_bits_checked start count value = none) := by
  have hbit : ∀ p, c.len ≤ p →
      c.get_bit_checked p = none ∧ c.set_bit_checked p b = none := by
    intro p hp
    constructor
    · rw [BitVec.get_bit_checked, if_neg (by omega)]
    · rw [BitVec.set_bit_checked, if_neg (by omega)]
  have hblock : ∀ i, c.block_len ≤ i →
      c.get_block_checked i = none ∧ c.set_block_checked i value = none := by
    intro i hi
    constructor
    · rw [BitVec.get_block_checked, if_neg (by omega)]
    · rw [BitVec.set_block_checked, if_neg (by omega)]
  refine ⟨hbit, hblock,
    ⟨(hbit c.len (by omega)).1, (hbit (c.len + 1) (by omega)).1,
      (hbit c.len (by omega)).2, (hbit (c.len + 1) (by omega)).2,
      (hblock c.block_len (by omega)).1, (hblock (c.block_len + 1) (by omega)).1,
      (hblock c.block_len (by omega)).2, (hblock (c.block_len + 1) (by omega)).2⟩,
    ?_⟩
  intro start count h
  constructor
  · rw [BitVec.get_bits_checked, BitsModel.get_bits_checked,
      if_neg (show ¬ start + count ≤ (BitVec.toModel c).bit_len from by
        show ¬ start + count ≤ c.len
        omega)]
  · rw [BitVec.set_bits_checked, if_neg (by omega)]

theorem claim_C4_witness :
    (∀ p, bvEx.len ≤ p →
      bvEx.get_bit_checked p = none ∧ bvEx.set_bit_checked p true = none) ∧
    (∀ i, bvEx.block_len ≤ i →
      bvEx.get_block_checked i = none ∧ bvEx.set_block_checked i 9 = none) ∧
    (bvEx.get_bit_checked bvEx.len = none ∧
      bvEx.get_bit_checked (bvEx.len + 1) = none ∧
      bvEx.set_bit_checked bvEx.len true = none ∧
      bvEx.set_bit_checked (bvEx.len + 1) true = none ∧
      bvEx.get_block_checked bvEx.block_len = none ∧
      bvEx.get_block_checked (bvEx.block_len + 1) = none ∧
      bvEx.set_block_checked bvEx.block_len 9 = none ∧
      bvEx.set_block_checked (bvEx.block_len + 1) 9 = none) ∧
    (∀ start count, bvEx.len < start + count →
      bvEx.get_bits_checked start count = none ∧
      bvEx.set_bits_checked start count 9 = none) :=
  claim_C4 8 bvEx 9 true

/-- C5: slack bits are never observed through the read interface.  On a
`BitVec` whose length is not block-aligned, `get_block` on the last
occupied block returns zeros at and above `bits_in_block` even right after
`set_block` stored an arbitrary raw value there; moreover every result of
`get_bit`, `get_block` and `get_bits` is unchanged when the slack-bit
content of the raw storage changes (only the bits below `bit_len`
matter). -/
theorem claim_C5 (w : Nat) (c c2 : BitVec w) (value : Nat) (hw : 0 < w)
    (hmod : c.len % w ≠ 0) :
    (∀ j, block_bits w c.len (c.block_len - 1) ≤ j →
      ((c.set_block (c.block_len - 1) value).get_block
        (c.block_len - 1)).testBit j = false) ∧
    (c.len = c2.len →
      (∀ p, p < c.len →
        (c.bits.getD (p / w) 0).testBit (p % w) =
          (c2.bits.getD (p / w) 0).testBit (p % w)) →
      (∀ i, c.get_block i = c2.get_block i) ∧
      (∀ p, c.get_bit p = c2.get_bit p) ∧
      (∀ start count, c.get_bits start count = c2.get_bits start count)) := by
  constructor
  · intro j hj
    rw [get_block_testBit hw]
    rw [block_bits] at hj
    rw [decide_eq_false (show ¬ (w * (c.block_len - 1) + j <
        (c.set_block (c.block_len - 1) value).len ∧ j < w) from by
      rw [set_block_len]
      omega), Bool.false_and]
  · intro hlen hraw
    have hblock : ∀ i, c.get_block i = c2.get_block i := by
      intro i
      apply Nat.eq_of_testBit_eq
      intro o
      rw [get_block_testBit hw, get_block_testBit hw, hlen]
      by_cases ho : w * i + o < c2.len ∧ o < w
      · have hp := hraw (w * i + o) (by omega)
        rw [show (w * i + o) / w = i from by
            rw [Nat.mul_add_div hw, Nat.div_eq_of_lt ho.2, Nat.add_zero],
          show (w * i + o) % w = o from by
            rw [Nat.mul_add_mod, Nat.mod_eq_of_lt ho.2]] at hp
        rw [hp]
      · rw [decide_eq_false ho, Bool.false_and, Bool.false_and]
    refine ⟨hblock, ?_, ?_⟩
    · intro p
      show (c.get_block (p / w)).testBit (p % w) =
        (c2.get_block (p / w)).testBit (p % w)
      rw [hblock]
    · intro start count
      show BitsModel.get_bits c.toModel start count =
        BitsModel.get_bits c2.toModel start count
      simp only [BitsModel.get_bits, BitVec.toModel, hblock]

theorem claim_C5_witness :
    ((0 : Nat) < 8 ∧ cSlack.len % 8 ≠ 0) ∧
    ((cSlack.set_block (cSlack.block_len - 1) 255).get_block
      (cSlack.block_len - 1)).testBit 5 = false ∧
    cSlack.get_bits 2 6 = cSlack2.get_bits 2 6 :=
  ⟨⟨by decide, by decide⟩,
   (claim_C5 8 cSlack cSlack2 255 (by decide) (by decide)).1 5 (by decide),
   ((claim_C5 8 cSlack cSlack2 255 (by decide) (by decide)).2 rfl
     (by decide)).2.2 2 6⟩

/-- C6: `push_block(value)` first aligns to a block boundary with 0 bits
and advances `len` by `W`; `get_block` at the newly created last index
returns exactly the pushed value, regardless of the alignment state before
the push. -/
theorem claim_C6 (w : Nat) (c : BitVec w) (value : Nat) (hw : 0 < w)
    (hv : value < 2 ^ w) :
    (c.push_block value).len = (c.align_block false).len + w ∧
    (c.push_block value).get_block ((c.push_block value).block_len - 1) =
      value :=
  ⟨push_block_len hw c value, push_block_get_block_last hw c value hv⟩

theorem claim_C6_witness :
    ((0 : Nat) < 8 ∧ 171 < 2 ^ 8) ∧
    ((cSlack.push_block 171).len = (cSlack.align_block false).len + 8 ∧
      (cSlack.push_block 171).get_block
        ((cSlack.push_block 171).block_len - 1) = 171) :=
  ⟨⟨by decide, by decide⟩, claim_C6 8 cSlack 171 (by decide) (by decide)⟩

/-- C7: the `BitVec` specializations of `align_block` and `push_block`
(`bit_vec/impls.rs`) are behaviorally identical to the generic defaults of
`traits.rs` that push one bit at a time: from any `BitVec` state satisfying
the container invariant, the specialized and the default operation produce
the same logical bit sequence (same `bit_len`, same `get_bit` at every
valid position). -/
theorem claim_C7 (w : Nat) (c : BitVec w) (v : Bool) (value : Nat)
    (hw : 0 < w) (hinv : c.len ≤ c.bits.length * w) :
    ((c.align_block v).len = (BitVec.align_block_default hw c v).len ∧
      ∀ p, p < (BitVec.align_block_default hw c v).len →
        (c.align_block v).get_bit p =
          (BitVec.align_block_default hw c v).get_bit p) ∧
    ((c.push_block value).len = (BitVec.push_block_default hw c value).len ∧
      ∀ p, p < (BitVec.push_block_default hw c value).len →
        (c.push_block value).get_bit p =
          (BitVec.push_block_default hw c value).get_bit p) := by
  obtain ⟨hdl, hdi, hdb⟩ := align_block_default_spec hw c v hinv
  obtain ⟨hal, hai, hab⟩ := align_block_default_spec hw c false hinv
  obtain ⟨hll, hli, hlb⟩ :=
    push_bits_loop_spec hw w (BitVec.align_block_default hw c false) value hai
  have hAd : (BitVec.align_block_default hw c false).len =
      (c.align_block false).len := by
    rw [hal, align_block_len hw]
  refine ⟨⟨?_, ?_⟩, ?_, ?_⟩
  · rw [align_block_len hw, hdl]
  · intro p _
    rw [align_block_get_bit hw c v hinv p, hdb p]
  · rw [push_block_len hw, BitVec.push_block_default, hll, hAd]
  · intro p hp
    rw [BitVec.push_block_default] at hp ⊢
    rw [push_block_get_bit hw c value p, hlb p, hAd]
    by_cases h1 : p < (c.align_block false).len
    · rw [if_pos h1,
        if_neg (show ¬ ((c.align_block false).len ≤ p ∧
          p < (c.align_block false).len + w) from by omega),
        align_block_get_bit hw c false hinv p, hab p]
    · rw [if_neg h1]
      by_cases h2 : p < (c.align_block false).len + w
      · rw [if_pos (show (c.align_block false).len ≤ p ∧
            p < (c.align_block false).len + w from by omega),
          decide_eq_true h2, Bool.true_and]
      · exfalso
        rw [hll, hAd] at hp
        omega

theorem claim_C7_witness :
    ((0 : Nat) < 8 ∧ cSlack.len ≤ cSlack.bits.length * 8) ∧
    (((cSlack.align_block true).len =
        (BitVec.align_block_default (by decide) cSlack true).len ∧
      ∀ p, p < (BitVec.align_block_default (by decide) cSlack true).len →
        (cSlack.align_block true).get_bit p =
          (BitVec.align_block_default (by decide) cSlack true).get_bit p) ∧
    ((cSlack.push_block 171).len =
        (BitVec.push_block_default (by decide) cSlack 171).len ∧
      ∀ p, p < (BitVec.push_block_default (by decide) cSlack 171).len →
        (cSlack.push_block 171).get_bit p =
          (BitVec.push_block_default (by decide) cSlack 171).get_bit p)) :=
  ⟨⟨by decide, by decide⟩, claim_C7 8 cSlack true 171 (by decide) (by decide)⟩

/-- C8: the `BitVec` specialization of `align_block(value)` pads until the
length is a multiple of `W`, is a no-op when already aligned, and is
idempotent: a second call returns the state of the first unchanged. -/
theorem claim_C8 (w : Nat) (c : BitVec w) (v : Bool) (hw : 0 < w) :
    (c.align_block v).align_block v = c.align_block v ∧
    (c.align_block v).len % w = 0 ∧
    (c.len % w = 0 → c.align_block v = c) := by
  have halign : ∀ d : BitVec w, d.len % w = 0 → d.align_block v = d := by
    intro d hd
    simp only [BitVec.align_block]
    rw [if_neg (by omega)]
  exact ⟨halign _ (align_block_len_aligned hw c v),
    align_block_len_aligned hw c v, halign c⟩

theorem claim_C8_witness :
    (0 : Nat) < 8 ∧
    ((cSlack.align_block true).align_block true = cSlack.align_block true ∧
      (cSlack.align_block true).len % 8 = 0 ∧
      (cSlack.len % 8 = 0 → cSlack.align_block true = cSlack)) :=
  ⟨by decide, claim_C8 8 cSlack true (by decide)⟩

/-- C9 (amended): `Inner` maintains the invariant that a present
allocation is non-empty, and every constructor preserves it: `new(init, 0)`
and `clone_resize(_, 0)` produce the absent variant; `new` with a nonzero
count produces a present buffer of that length; every value
`clone_resize` returns satisfies the invariant, and with a nonzero
`new_cap` it produces a present buffer of length `new_cap` whenever
`min(len, new_cap)` does not exceed the stored buffer's length — outside
that region the copy loop panics indexing the absent or too-short source
buffer and constructs nothing. -/
theorem claim_C9 (init n len cap : Nat) (s : Inner) :
    (Inner.new init n).invariant = true ∧
    (∀ r, s.clone_resize_checked len cap = some r → r.invariant = true) ∧
    (Inner.new init 0).val = none ∧
    s.clone_resize_checked len 0 = some ⟨none⟩ ∧
    (n ≠ 0 → (Inner.new init n).val = some (List.replicate n init) ∧
      (Inner.new init n).len = n) ∧
    (cap ≠ 0 → min len cap ≤ s.len →
      ∃ r, s.clone_resize_checked len cap = some r ∧
        r.val.isSome = true ∧ r.len = cap) := by
  refine ⟨?_, ?_, ?_, ?_, ?_, ?_⟩
  · by_cases hn : n = 0
    · simp [Inner.new, Inner.invariant, hn]
    · simp [Inner.new, Inner.invariant, hn]
      omega
  · intro r hr
    by_cases hc : cap = 0
    · rw [Inner.clone_resize_checked, if_pos hc] at hr
      cases hr
      rfl
    · rw [Inner.clone_resize_checked, if_neg hc] at hr
      cases hout : Inner.copy_blocks s 0 (List.replicate cap 0) (min len cap) with
      | none =>
        rw [hout] at hr
        simp at hr
      | some out =>
        rw [hout, Option.map_some'] at hr
        cases hr
        have hl := copy_blocks_length s (min len cap) 0
          (List.replicate cap 0) out hout
        rw [List.length_replicate] at hl
        simp only [Inner.invariant]
        simp
        omega
  · simp [Inner.new]
  · rw [Inner.clone_resize_checked, if_pos rfl]
  · intro hn
    simp [Inner.new, Inner.len, hn]
  · intro hc hle
    obtain ⟨out, hout, hlen⟩ :=
      copy_blocks_some s (min len cap) 0 (List.replicate cap 0) (by omega)
    refine ⟨⟨some out⟩, ?_, rfl, ?_⟩
    · rw [Inner.clone_resize_checked, if_neg hc, hout, Option.map_some']
    · show out.length = cap
      rw [hlen, List.length_replicate]

/-- C9 counterexample: `clone_resize(1, 1)` on the absent-buffer `Inner`
has a nonzero block count but produces no present buffer at all: the copy
loop's first read `self[0]` hits the panicking `Index` impl
(`bit_vec/inner.rs`, the "empty access" branch), contrary to the claim's
unconditional statement that any nonzero block count produces a present
buffer of that length. -/
theorem claim_C9_counterexample :
    (1 : Nat) ≠ 0 ∧
    Inner.clone_resize_checked ⟨none⟩ 1 1 = none :=
  ⟨by decide, rfl⟩

theorem claim_C9_witness :
    (Inner.new 7 3).invariant = true ∧
    (∀ r, (Inner.new 7 2).clone_resize_checked 2 5 = some r →
      r.invariant = true) ∧
    (Inner.new 7 0).val = none ∧
    (Inner.new 7 2).clone_resize_checked 2 0 = some ⟨none⟩ ∧
    ((3 : Nat) ≠ 0 → (Inner.new 7 3).val = some (List.replicate 3 7) ∧
      (Inner.new 7 3).len = 3) ∧
    ((5 : Nat) ≠ 0 → min 2 5 ≤ (Inner.new 7 2).len →
      ∃ r, (Inner.new 7 2).clone_resize_checked 2 5 = some r ∧
        r.val.isSome = true ∧ r.len = 5) :=
  claim_C9 7 3 2 5 (Inner.new 7 2)

/-- C10: `pop_bit` on a zero-length container reports the absent result
and leaves the container unchanged (no panic); on a non-empty container it
returns the last bit and decrements the length without shrinking
storage. -/
theorem claim_C10 (w : Nat) (c : BitVec w) :
    (c.len = 0 → c.pop = (none, c)) ∧
    (0 < c.len →
      c.pop = (some (c.get_bit (c.len - 1)), ⟨c.bits, c.len - 1⟩)) := by
  constructor
  · intro h
    rw [BitVec.pop, if_pos h]
  · intro h
    rw [BitVec.pop, if_neg (by omega)]

theorem claim_C10_witness :
    (0 : Nat) < cSlack.len ∧
    cSlack.pop = (some (cSlack.get_bit (cSlack.len - 1)),
      ⟨cSlack.bits, cSlack.len - 1⟩) :=
  ⟨by decide, (claim_C10 8 cSlack).2 (by decide)⟩

end Bv
